import Mathlib

/-!
# Verification of the acnh-backup archive engine (src/src/main.rs)

Shallow embedding of the backup tool's core: the filename codec
(`backup_directory` / `restore_directory`), the archive writer and reader
(`create_zip_backup` / `extract_zip_backup`), the backup catalog and the
destructive restore coordinator.

Modelling conventions:
* Filenames and displayed strings are `List Char` (Rust `String`s).
* The local timezone is modelled as the identity mapping (a UTC-like zone):
  `Local.from_local_datetime(dt).unwrap()` keeps the wall-clock fields, and
  `DateTime<Local>::default()` displays as `1970-01-01 00:00:00`.
* The Rust regex `\d` class is modelled as ASCII digits (`Char.isDigit`);
  `.` is any character except `'\n'`, as in the `regex` crate's default mode.
* Filesystem trees are association lists from relative paths
  (`List String`, one element per component) to file/directory objects.
-/

/-- One calendar timestamp at one-second resolution (the resolution of the
`%Y-%m-%d_%H-%M-%S` format used by `backup_directory`). -/
structure Timestamp where
  year : Nat
  month : Nat
  day : Nat
  hour : Nat
  minute : Nat
  second : Nat
deriving DecidableEq

/-- The constant title id `0000000000000001` prefixed to every backup name,
from the format string at src/src/main.rs line 91 and the regex at line 115. -/
def fixedIdChars : List Char :=
  ['0', '0', '0', '0', '0', '0', '0', '0', '0', '0', '0', '0', '0', '0', '0', '1']

/-- The characters of the literal `.zip` suffix. -/
def zipSuffix : List Char := ['.', 'z', 'i', 'p']

/-- Digit character of a value below ten (used with `% 10`, mirroring
zero-padded chrono formatting). -/
def digitChar : Nat → Char
  | 0 => '0'
  | 1 => '1'
  | 2 => '2'
  | 3 => '3'
  | 4 => '4'
  | 5 => '5'
  | 6 => '6'
  | 7 => '7'
  | 8 => '8'
  | _ => '9'

/-- Numeric value of an ASCII digit character. -/
def charVal (c : Char) : Nat := c.toNat - 48

/-- The `%Y-%m-%d` date portion of chrono's formatting, zero-padded. -/
def encodeDate (ts : Timestamp) : List Char :=
  [digitChar (ts.year / 1000 % 10), digitChar (ts.year / 100 % 10),
   digitChar (ts.year / 10 % 10), digitChar (ts.year % 10), '-',
   digitChar (ts.month / 10 % 10), digitChar (ts.month % 10), '-',
   digitChar (ts.day / 10 % 10), digitChar (ts.day % 10)]

/-- The `%H-%M-%S` time portion of chrono's formatting, zero-padded. -/
def encodeTime (ts : Timestamp) : List Char :=
  [digitChar (ts.hour / 10 % 10), digitChar (ts.hour % 10), '-',
   digitChar (ts.minute / 10 % 10), digitChar (ts.minute % 10), '-',
   digitChar (ts.second / 10 % 10), digitChar (ts.second % 10)]

/-- The backup filename built by `backup_directory`
(src/src/main.rs lines 90-94):
`format!("0000000000000001_{}_{}.zip", custom_name, now.format("%Y-%m-%d_%H-%M-%S"))`. -/
def encode_backup_name (label : List Char) (now : Timestamp) : List Char :=
  fixedIdChars ++ '_' :: label ++ '_' :: encodeDate now ++ '_' :: encodeTime now ++ zipSuffix

/-- The `\d{4}-\d{2}-\d{2}` shape of the regex's date capture. -/
def matchDate : List Char → Bool
  | [y1, y2, y3, y4, a, m1, m2, b, d1, d2] =>
    y1.isDigit && y2.isDigit && y3.isDigit && y4.isDigit && a == '-' &&
    m1.isDigit && m2.isDigit && b == '-' && d1.isDigit && d2.isDigit
  | _ => false

/-- The `\d{2}-\d{2}-\d{2}` shape of the regex's time capture. -/
def matchTime : List Char → Bool
  | [h1, h2, a, m1, m2, b, s1, s2] =>
    h1.isDigit && h2.isDigit && a == '-' && m1.isDigit && m2.isDigit &&
    b == '-' && s1.isDigit && s2.isDigit
  | _ => false

/-- The fixed-length suffix `_(\d{4}-\d{2}-\d{2})_(\d{2}-\d{2}-\d{2})\.zip`
of the regex at src/src/main.rs line 115, returning the two captures.  It is
exactly 24 characters long, which is what makes the regex's split of the
filename unique (the greedy `(.+)` capture necessarily ends 24 characters
before the end of the string). -/
def matchTail : List Char → Option (List Char × List Char)
  | [u1, y1, y2, y3, y4, a, m1, m2, b, d1, d2, u2, hh1, hh2, c, mi1, mi2, e, s1, s2, dot, z, i, p] =>
    if u1 = '_' ∧ u2 = '_' ∧ dot = '.' ∧ z = 'z' ∧ i = 'i' ∧ p = 'p' ∧
        matchDate [y1, y2, y3, y4, a, m1, m2, b, d1, d2] = true ∧
        matchTime [hh1, hh2, c, mi1, mi2, e, s1, s2] = true then
      some ([y1, y2, y3, y4, a, m1, m2, b, d1, d2], [hh1, hh2, c, mi1, mi2, e, s1, s2])
    else none
  | _ => none

/-- The anchored regex
`^0000000000000001_(.+)_(\d{4}-\d{2}-\d{2})_(\d{2}-\d{2}-\d{2})\.zip$`
of src/src/main.rs line 115, returning the three captures
(label, date, time).  Because everything after the `(.+)` capture has fixed
length 24, a match exists iff the string starts with the 17-character prefix
`0000000000000001_`, its last 24 characters have the `_date_time.zip` shape,
and the characters in between (the label capture) are non-empty and free of
`'\n'` (which `.` does not match). -/
def withLabelCaptures (filename : List Char) : Option (List Char × List Char × List Char) :=
  if filename.take 17 = fixedIdChars ++ ['_'] then
    let rest := filename.drop 17
    let label := rest.take (rest.length - 24)
    let tail := rest.drop (rest.length - 24)
    if label ≠ [] ∧ label.all (fun c => c ≠ '\n') = true then
      match matchTail tail with
      | some (d, t) => some (label, d, t)
      | none => none
    else none
  else none

/-- Leap-year rule of the Gregorian calendar, as validated by chrono. -/
def leapYear (y : Nat) : Bool := (y % 4 = 0 && y % 100 != 0) || y % 400 = 0

/-- Days in a month, as validated by chrono's date parsing. -/
def daysInMonth (y m : Nat) : Nat :=
  if m = 2 then (if leapYear y then 29 else 28)
  else if m = 4 ∨ m = 6 ∨ m = 9 ∨ m = 11 then 30 else 31

/-- `NaiveDateTime::parse_from_str(date ++ " " ++ time, "%Y-%m-%d %H-%M-%S")`
(src/src/main.rs line 136) applied to the two regex captures: checks the
digit/separator shape and chrono's field ranges (second 60 is accepted as a
leap second).  Returns the parsed timestamp, `none` on failure. -/
def parse_datetime (d t : List Char) : Option Timestamp :=
  match d, t with
  | [y1, y2, y3, y4, a, m1, m2, b, d1, d2], [h1, h2, c, mi1, mi2, e, s1, s2] =>
    if y1.isDigit = true ∧ y2.isDigit = true ∧ y3.isDigit = true ∧ y4.isDigit = true ∧
        a = '-' ∧ m1.isDigit = true ∧ m2.isDigit = true ∧ b = '-' ∧
        d1.isDigit = true ∧ d2.isDigit = true ∧
        h1.isDigit = true ∧ h2.isDigit = true ∧ c = '-' ∧
        mi1.isDigit = true ∧ mi2.isDigit = true ∧ e = '-' ∧
        s1.isDigit = true ∧ s2.isDigit = true then
      let y := 1000 * charVal y1 + 100 * charVal y2 + 10 * charVal y3 + charVal y4
      let mo := 10 * charVal m1 + charVal m2
      let dd := 10 * charVal d1 + charVal d2
      let h := 10 * charVal h1 + charVal h2
      let mi := 10 * charVal mi1 + charVal mi2
      let s := 10 * charVal s1 + charVal s2
      if 1 ≤ mo ∧ mo ≤ 12 ∧ 1 ≤ dd ∧ dd ≤ daysInMonth y mo ∧ h ≤ 23 ∧ mi ≤ 59 ∧ s ≤ 60 then
        some ⟨y, mo, dd, h, mi, s⟩
      else none
    else none
  | _, _ => none

/-- The `%H:%M:%S` display form used at src/src/main.rs line 141. -/
def timeDisplay (ts : Timestamp) : List Char :=
  [digitChar (ts.hour / 10 % 10), digitChar (ts.hour % 10), ':',
   digitChar (ts.minute / 10 % 10), digitChar (ts.minute % 10), ':',
   digitChar (ts.second / 10 % 10), digitChar (ts.second % 10)]

/-- The `%Y-%m-%d %H:%M:%S` display formatting of the decoded timestamp. -/
def formatDisplay (ts : Timestamp) : List Char := encodeDate ts ++ ' ' :: timeDisplay ts

/-- `DateTime<Local>::default()` (the Unix epoch), which line 139's
`unwrap_or_default()` substitutes when the datetime parse fails; displayed
under the identity-timezone model. -/
def epochTimestamp : Timestamp := ⟨1970, 1, 1, 0, 0, 0⟩

/-- The decoding step of `restore_directory` (src/src/main.rs lines 128-147)
for a single filename: on a regex match, build the display name
`format!("ACNH {} {}", custom_name, formatted_date_time)` where the
formatted datetime is the parse result or — via `unwrap_or_default()` —
the epoch; on no match, the pair `(filename, filename)`. -/
def decode_filename (filename : List Char) : List Char × List Char :=
  match withLabelCaptures filename with
  | some (label, d, t) =>
    let ts := (parse_datetime d t).getD epochTimestamp
    ("ACNH ".data ++ label ++ ' ' :: formatDisplay ts, filename)
  | none => (filename, filename)

/-- The without-label grammar of spec section 6,
`^<fixedId>_(\d{4}-\d{2}-\d{2})_(\d{2}-\d{2}-\d{2})\.zip$`: the fixed id
followed directly by the 24-character `_date_time.zip` tail. -/
def matchNoLabelGrammar (filename : List Char) : Prop :=
  filename.take 16 = fixedIdChars ∧ (matchTail (filename.drop 16)).isSome = true

/-- A timestamp the encoder can be called on: the field ranges chrono's
`Local::now()` guarantees, together with a four-digit year (the `%Y` format
emits more than four digits for year ten thousand and beyond, which would
leave the filename grammar). -/
def validTimestamp (ts : Timestamp) : Prop :=
  ts.year ≤ 9999 ∧ 1 ≤ ts.month ∧ ts.month ≤ 12 ∧ 1 ≤ ts.day ∧
  ts.day ≤ daysInMonth ts.year ts.month ∧ ts.hour ≤ 23 ∧ ts.minute ≤ 59 ∧ ts.second ≤ 59

instance : DecidablePred validTimestamp := fun ts => by
  unfold validTimestamp; infer_instance

instance : DecidablePred matchNoLabelGrammar := fun f => by
  unfold matchNoLabelGrammar; infer_instance

-- Basic facts about digits and two/four-digit numerals.

theorem digitChar_spec (k : Nat) (h : k < 10) :
    (digitChar k).isDigit = true ∧ charVal (digitChar k) = k := by
  interval_cases k <;> exact ⟨by decide, by decide⟩

theorem digitChar_isDigit (n : Nat) : (digitChar (n % 10)).isDigit = true :=
  (digitChar_spec (n % 10) (Nat.mod_lt n (by decide))).1

theorem charVal_digitChar (n : Nat) : charVal (digitChar (n % 10)) = n % 10 :=
  (digitChar_spec (n % 10) (Nat.mod_lt n (by decide))).2

theorem daysInMonth_le (y m : Nat) : daysInMonth y m ≤ 31 := by
  unfold daysInMonth
  split_ifs <;> omega

theorem encodeDate_length (ts : Timestamp) : (encodeDate ts).length = 10 := by
  simp [encodeDate]

theorem encodeTime_length (ts : Timestamp) : (encodeTime ts).length = 8 := by
  simp [encodeTime]

theorem matchDate_encodeDate (ts : Timestamp) : matchDate (encodeDate ts) = true := by
  simp [matchDate, encodeDate, digitChar_isDigit]

theorem matchTime_encodeTime (ts : Timestamp) : matchTime (encodeTime ts) = true := by
  simp [matchTime, encodeTime, digitChar_isDigit]

theorem matchTail_canonical (d t : List Char) (h10 : d.length = 10) (h8 : t.length = 8)
    (hd : matchDate d = true) (ht : matchTime t = true) :
    matchTail ('_' :: d ++ '_' :: t ++ zipSuffix) = some (d, t) := by
  rcases d with _ | ⟨a1, d⟩; · simp at h10
  rcases d with _ | ⟨a2, d⟩; · simp at h10
  rcases d with _ | ⟨a3, d⟩; · simp at h10
  rcases d with _ | ⟨a4, d⟩; · simp at h10
  rcases d with _ | ⟨a5, d⟩; · simp at h10
  rcases d with _ | ⟨a6, d⟩; · simp at h10
  rcases d with _ | ⟨a7, d⟩; · simp at h10
  rcases d with _ | ⟨a8, d⟩; · simp at h10
  rcases d with _ | ⟨a9, d⟩; · simp at h10
  rcases d with _ | ⟨a10, d⟩; · simp at h10
  have hd0 : d = [] := List.eq_nil_of_length_eq_zero (by simp only [List.length_cons] at h10; omega)
  subst hd0
  rcases t with _ | ⟨b1, t⟩; · simp at h8
  rcases t with _ | ⟨b2, t⟩; · simp at h8
  rcases t with _ | ⟨b3, t⟩; · simp at h8
  rcases t with _ | ⟨b4, t⟩; · simp at h8
  rcases t with _ | ⟨b5, t⟩; · simp at h8
  rcases t with _ | ⟨b6, t⟩; · simp at h8
  rcases t with _ | ⟨b7, t⟩; · simp at h8
  rcases t with _ | ⟨b8, t⟩; · simp at h8
  have ht0 : t = [] := List.eq_nil_of_length_eq_zero (by simp only [List.length_cons] at h8; omega)
  subst ht0
  show matchTail ['_', a1, a2, a3, a4, a5, a6, a7, a8, a9, a10, '_',
    b1, b2, b3, b4, b5, b6, b7, b8, '.', 'z', 'i', 'p'] = some _
  rw [matchTail, if_pos ⟨rfl, rfl, rfl, rfl, rfl, rfl, hd, ht⟩]

theorem parse_datetime_encode (ts : Timestamp) (hv : validTimestamp ts) :
    parse_datetime (encodeDate ts) (encodeTime ts) = some ts := by
  obtain ⟨y, mo, dd, h, mi, s⟩ := ts
  unfold validTimestamp at hv
  dsimp only at hv
  obtain ⟨hy, hmo1, hmo2, hdd1, hdd2, hh, hmi, hs⟩ := hv
  have hdm : dd ≤ 31 := le_trans hdd2 (daysInMonth_le y mo)
  have e2 : ∀ n : Nat, n ≤ 99 → 10 * (n / 10 % 10) + n % 10 = n := fun n hn => by omega
  have ey : 1000 * (y / 1000 % 10) + 100 * (y / 100 % 10) + 10 * (y / 10 % 10) + y % 10 = y := by
    omega
  rw [encodeDate, encodeTime, parse_datetime]
  rw [if_pos ⟨digitChar_isDigit (y / 1000), digitChar_isDigit (y / 100), digitChar_isDigit (y / 10),
    digitChar_isDigit y, rfl, digitChar_isDigit (mo / 10), digitChar_isDigit mo, rfl,
    digitChar_isDigit (dd / 10), digitChar_isDigit dd, digitChar_isDigit (h / 10),
    digitChar_isDigit h, rfl, digitChar_isDigit (mi / 10), digitChar_isDigit mi, rfl,
    digitChar_isDigit (s / 10), digitChar_isDigit s⟩]
  simp only [charVal_digitChar, ey, e2 mo (by omega), e2 dd (by omega), e2 h (by omega),
    e2 mi (by omega), e2 s (by omega)]
  rw [if_pos ⟨hmo1, hmo2, hdd1, hdd2, hh, hmi, by omega⟩]

theorem withLabelCaptures_canonical (label d t : List Char) (hl : label ≠ [])
    (hn : label.all (fun c => c ≠ '\n') = true) (h10 : d.length = 10) (h8 : t.length = 8)
    (hd : matchDate d = true) (ht : matchTime t = true) :
    withLabelCaptures (fixedIdChars ++ '_' :: label ++ '_' :: d ++ '_' :: t ++ zipSuffix) =
      some (label, d, t) := by
  have hsplit : fixedIdChars ++ '_' :: label ++ '_' :: d ++ '_' :: t ++ zipSuffix
      = (fixedIdChars ++ ['_']) ++ (label ++ ('_' :: d ++ '_' :: t ++ zipSuffix)) := by
    simp
  have h17 : (fixedIdChars ++ ['_']).length = 17 := by decide
  have h24 : ('_' :: d ++ '_' :: t ++ zipSuffix).length = 24 := by
    simp [zipSuffix, h10, h8]
  have hrl : (label ++ ('_' :: d ++ '_' :: t ++ zipSuffix)).length - 24 = label.length := by
    have hz : zipSuffix.length = 4 := rfl
    simp only [List.length_append, List.length_cons, h10, h8, hz]
    omega
  rw [withLabelCaptures, hsplit, List.take_left' h17, List.drop_left' h17, if_pos rfl]
  simp only [hrl]
  rw [List.take_left' (rfl : label.length = label.length),
    List.drop_left' (rfl : label.length = label.length), if_pos ⟨hl, hn⟩,
    matchTail_canonical d t h10 h8 hd ht]

/-- C2: encoding a valid (label, timestamp) pair into a backup filename and
decoding it back with the regex capture plus the date-time parse of
`restore_directory` recovers exactly the label and the timestamp (second
resolution).  Validity is the domain the encoder draws from: a non-empty
label without `'\n'` (the regex's `.+` capture) and a timestamp with
chrono's field ranges and a four-digit year. -/
theorem decode_encode_backup_name (label : List Char) (ts : Timestamp)
    (hl : label ≠ []) (hn : label.all (fun c => c ≠ '\n') = true) (hv : validTimestamp ts) :
    withLabelCaptures (encode_backup_name label ts) =
      some (label, encodeDate ts, encodeTime ts) ∧
    parse_datetime (encodeDate ts) (encodeTime ts) = some ts :=
  ⟨by
    rw [encode_backup_name]
    exact withLabelCaptures_canonical label (encodeDate ts) (encodeTime ts) hl hn
      (encodeDate_length ts) (encodeTime_length ts) (matchDate_encodeDate ts)
      (matchTime_encodeTime ts),
   parse_datetime_encode ts hv⟩

/-- Witness for C2 at the spec's scenario: label `Save1`, timestamp
2024-05-01T12:30:00 encodes to `0000000000000001_Save1_2024-05-01_12-30-00.zip`
and decodes back to the same pair. -/
theorem decode_encode_backup_name_save1 :
    encode_backup_name ("Save1".data) ⟨2024, 5, 1, 12, 30, 0⟩ =
      "0000000000000001_Save1_2024-05-01_12-30-00.zip".data ∧
    withLabelCaptures (encode_backup_name ("Save1".data) ⟨2024, 5, 1, 12, 30, 0⟩) =
      some ("Save1".data, encodeDate ⟨2024, 5, 1, 12, 30, 0⟩, encodeTime ⟨2024, 5, 1, 12, 30, 0⟩) ∧
    parse_datetime (encodeDate ⟨2024, 5, 1, 12, 30, 0⟩) (encodeTime ⟨2024, 5, 1, 12, 30, 0⟩) =
      some ⟨2024, 5, 1, 12, 30, 0⟩ := by
  have h := decode_encode_backup_name ("Save1".data) ⟨2024, 5, 1, 12, 30, 0⟩
    (by decide) (by decide) (by decide)
  exact ⟨by decide, h.1, h.2⟩

theorem matchDate_length (d : List Char) (h : matchDate d = true) : d.length = 10 := by
  unfold matchDate at h
  split at h
  · simp
  · cases h

theorem matchTime_length (t : List Char) (h : matchTime t = true) : t.length = 8 := by
  unfold matchTime at h
  split at h
  · simp
  · cases h

theorem matchTail_some (cs d t : List Char) (h : matchTail cs = some (d, t)) :
    cs = '_' :: d ++ '_' :: t ++ zipSuffix ∧ matchDate d = true ∧ matchTime t = true := by
  unfold matchTail at h
  split at h
  · split at h
    · rename_i hcond
      obtain ⟨h1, h2, h3, h4, h5, h6, hd, ht⟩ := hcond
      simp only [Option.some.injEq, Prod.mk.injEq] at h
      obtain ⟨hd', ht'⟩ := h
      subst hd'
      subst ht'
      subst h1
      subst h2
      subst h3
      subst h4
      subst h5
      subst h6
      exact ⟨by simp [zipSuffix], hd, ht⟩
    · cases h
  · cases h

/-- C3 counterexample: the filename `0000000000000001_2024-05-01_12-30-00.zip`
matches the without-label grammar, yet the decoding of `restore_directory`
(whose only regex is the with-label one) treats it as an opaque display
value, returning the filename unchanged instead of a no-label record. -/
theorem noLabel_filename_treated_opaque :
    matchNoLabelGrammar ("0000000000000001_2024-05-01_12-30-00.zip".data) ∧
    decode_filename ("0000000000000001_2024-05-01_12-30-00.zip".data) =
      ("0000000000000001_2024-05-01_12-30-00.zip".data,
       "0000000000000001_2024-05-01_12-30-00.zip".data) :=
  ⟨by decide, by decide⟩

/-- C3 amended: a filename matching the without-label grammar
`^<fixedId>_(\d{4}-\d{2}-\d{2})_(\d{2}-\d{2}-\d{2})\.zip$` never matches the
single (with-label) regex the code uses — the label capture would be empty —
so `restore_directory` returns it as an opaque catalog entry whose display
name equals the archive filename. -/
theorem noLabel_decoded_opaque (f : List Char) (h : matchNoLabelGrammar f) :
    decode_filename f = (f, f) := by
  obtain ⟨hpre, htail⟩ := h
  obtain ⟨⟨d, t⟩, hdt⟩ := Option.isSome_iff_exists.mp htail
  obtain ⟨hcs, hd, ht⟩ := matchTail_some (f.drop 16) d t hdt
  have h10 : d.length = 10 := matchDate_length d hd
  have h8 : t.length = 8 := matchTime_length t ht
  have hf : f = fixedIdChars ++ ('_' :: d ++ '_' :: t ++ zipSuffix) := by
    rw [← hpre, ← hcs, List.take_append_drop]
  have hf' : f = (fixedIdChars ++ ['_']) ++ (d ++ '_' :: t ++ zipSuffix) := by
    rw [hf]; simp
  have hnone : withLabelCaptures f = none := by
    rw [withLabelCaptures, hf', List.take_left' (by decide), List.drop_left' (by decide),
      if_pos rfl]
    have hlen : (d ++ '_' :: t ++ zipSuffix).length - 24 = 0 := by
      have hz : zipSuffix.length = 4 := rfl
      simp only [List.length_append, List.length_cons, h10, h8, hz]
    simp only [hlen, List.take_zero]
    rw [if_neg (fun hc => hc.1 rfl)]
  rw [decode_filename, hnone]

/-- Witness for the amended C3 at a concrete without-label filename. -/
theorem noLabel_decoded_opaque_instance :
    decode_filename ("0000000000000001_2025-01-02_03-04-05.zip".data) =
      ("0000000000000001_2025-01-02_03-04-05.zip".data,
       "0000000000000001_2025-01-02_03-04-05.zip".data) :=
  noLabel_decoded_opaque ("0000000000000001_2025-01-02_03-04-05.zip".data) (by decide)

/-- C4 counterexample: `0000000000000001_X_2024-13-01_12-30-00.zip` matches
the regex (month field `13`), its date-time fails to parse, and decode does
NOT return the filename unchanged: `unwrap_or_default()` substitutes the
epoch timestamp and the entry is displayed as `ACNH X 1970-01-01 00:00:00`. -/
theorem decode_parse_failure_not_opaque :
    withLabelCaptures ("0000000000000001_X_2024-13-01_12-30-00.zip".data) =
      some ("X".data, "2024-13-01".data, "12-30-00".data) ∧
    parse_datetime ("2024-13-01".data) ("12-30-00".data) = none ∧
    decode_filename ("0000000000000001_X_2024-13-01_12-30-00.zip".data) =
      ("ACNH X 1970-01-01 00:00:00".data, "0000000000000001_X_2024-13-01_12-30-00.zip".data) ∧
    ("ACNH X 1970-01-01 00:00:00".data ≠ "0000000000000001_X_2024-13-01_12-30-00.zip".data) :=
  ⟨by decide, by decide, by decide, by decide⟩

/-- C4 amended: if the regex does not match, decode returns the filename
itself, unchanged, as the opaque display value; decode is a total function
(it never raises), and the archive-filename component of its result is
always the input filename.  However, when the regex matches and the
date-time fails to parse, decode does not fall back to the opaque filename:
it substitutes the default (epoch) timestamp into an `ACNH` display name. -/
theorem decode_fallback_behavior (f : List Char) :
    (withLabelCaptures f = none → decode_filename f = (f, f)) ∧
    (∀ l d t, withLabelCaptures f = some (l, d, t) → parse_datetime d t = none →
      decode_filename f = ("ACNH ".data ++ l ++ ' ' :: formatDisplay epochTimestamp, f)) ∧
    (decode_filename f).2 = f := by
  refine ⟨fun h => by rw [decode_filename, h], fun l d t h hp => ?_, ?_⟩
  · rw [decode_filename, h]
    simp [hp]
  · cases hw : withLabelCaptures f with
    | none => rw [decode_filename, hw]
    | some v =>
      obtain ⟨l, d, t⟩ := v
      rw [decode_filename, hw]

/-- Witness for the amended C4: an unmatched name is returned verbatim, and
a matched name with an invalid date (February 30th) gets the epoch display. -/
theorem decode_fallback_behavior_instance :
    decode_filename ("random.zip".data) = ("random.zip".data, "random.zip".data) ∧
    decode_filename ("0000000000000001_Y_2024-02-30_00-00-00.zip".data) =
      ("ACNH ".data ++ "Y".data ++ ' ' :: formatDisplay epochTimestamp,
       "0000000000000001_Y_2024-02-30_00-00-00.zip".data) :=
  ⟨(decode_fallback_behavior ("random.zip".data)).1 (by decide),
   (decode_fallback_behavior ("0000000000000001_Y_2024-02-30_00-00-00.zip".data)).2.1
     ("Y".data) ("2024-02-30".data) ("00-00-00".data) (by decide) (by decide)⟩

/-- A path relative to the archive root: one element per `/`-separated
component of a zip entry name (the trailing-separator directory marker is
carried by `ZipEntry.isDir` instead). -/
abbrev FsPath := List String

/-- A filesystem object: a regular file with its byte contents and optional
unix permission mode, or a directory with an optional mode (`none` models
the platform default mode of a freshly created file or directory). -/
inductive FsObj where
  | file (contents : List Nat) (mode : Option Nat)
  | dir (mode : Option Nat)
deriving DecidableEq

/-- A directory tree as a finite map from relative paths to objects,
represented as an association list (first binding wins). -/
abbrev FS := List (FsPath × FsObj)

/-- Map lookup. -/
def lookupFS : FS → FsPath → Option FsObj
  | [], _ => none
  | (q, o) :: rest, p => if q = p then some o else lookupFS rest p

/-- `FsPath::exists` relative to the extraction target: the target root `[]`
itself always exists. -/
def existsFS (fs : FS) (p : FsPath) : Bool := p = [] || (lookupFS fs p).isSome

/-- Replace the binding of `p` in place, or append a new binding. -/
def insertReplace : FS → FsPath → FsObj → FS
  | [], p, o => [(p, o)]
  | (q, o') :: rest, p, o =>
    if q = p then (q, o) :: rest else (q, o') :: insertReplace rest p o

/-- The non-empty prefixes of a path, shortest first — the chain of
directories `fs::create_dir_all` creates. -/
def prefixesOf (p : FsPath) : List FsPath := (List.range p.length).map (fun i => p.take (i + 1))

/-- All non-empty prefixes of `p` (including `p` itself) are present as
directories. -/
def dirsExist (fs : FS) (p : FsPath) : Bool :=
  (prefixesOf p).all (fun q =>
    match lookupFS fs q with
    | some (.dir _) => true
    | _ => false)

/-- One step of `fs::create_dir_all`: creating a directory that already
exists is not an error; a file in the way is. -/
def createDir1 (fs : FS) (p : FsPath) : Option FS :=
  match lookupFS fs p with
  | some (.dir _) => some fs
  | some (.file _ _) => none
  | none => some (fs ++ [(p, FsObj.dir none)])

/-- `fs::create_dir_all`: create every missing directory on the path,
shortest prefix first. -/
def createDirAll (fs : FS) (p : FsPath) : Option FS :=
  List.foldlM createDir1 fs (prefixesOf p)

/-- `File::create` followed by `io::copy` (src/src/main.rs lines 242-243):
truncate/overwrite an existing file (keeping its permission bits), create a
fresh file with default permissions otherwise; fails if a directory sits at
that path. -/
def createFileWrite (fs : FS) (p : FsPath) (contents : List Nat) : Option FS :=
  match lookupFS fs p with
  | some (.dir _) => none
  | some (.file _ m) => some (insertReplace fs p (.file contents m))
  | none => some (fs ++ [(p, FsObj.file contents none)])

/-- Overwrite an object's permission mode. -/
def FsObj.withMode : FsObj → Nat → FsObj
  | .file c _, m => .file c (some m)
  | .dir _, m => .dir (some m)

/-- The permission mode stored on an object. -/
def FsObj.modeOf : FsObj → Option Nat
  | .file _ m => m
  | .dir m => m

/-- `fs::set_permissions` (src/src/main.rs line 251): set the mode of an
existing object, fail if the path is absent. -/
def setPermissions (fs : FS) (p : FsPath) (m : Nat) : Option FS :=
  match lookupFS fs p with
  | some o => some (insertReplace fs p (o.withMode m))
  | none => none

/-- One archive entry: its relative path, whether its stored name ends with
the `/` directory marker, its byte contents (files only) and the optional
unix mode returned by `file.unix_mode()`. -/
structure ZipEntry where
  path : FsPath
  isDir : Bool
  contents : List Nat
  mode : Option Nat
deriving DecidableEq

/-- The permission block at src/src/main.rs lines 246-253: under
`#[cfg(unix)]` (`u = true`) an entry carrying a mode has it applied to the
created path; on other platforms the block is compiled out and is a no-op. -/
def applyUnixMode (u : Bool) (fs : FS) (p : FsPath) (m : Option Nat) : Option FS :=
  if u then
    match m with
    | some mo => setPermissions fs p mo
    | none => some fs
  else some fs

/-- The parent of an entry's output path (`outpath.parent()`). -/
def parentOf (p : FsPath) : FsPath := p.dropLast

/-- The body of the extraction loop of `extract_zip_backup`
(src/src/main.rs lines 227-253) for one entry: a directory entry is created
with `create_dir_all`; otherwise the parent chain is created when absent and
the file's bytes are written; finally the unix permission block runs. -/
def extractEntry (u : Bool) (fs : FS) (e : ZipEntry) : Option FS :=
  match (if e.isDir then createDirAll fs e.path
    else
      match (if existsFS fs (parentOf e.path) then some fs else createDirAll fs (parentOf e.path)) with
      | some fs2 => createFileWrite fs2 e.path e.contents
      | none => none) with
  | some fs3 => applyUnixMode u fs3 e.path e.mode
  | none => none

/-- `extract_zip_backup` (src/src/main.rs lines 222-257): process the
archive's entries in stored order, stopping at the first error (the `?`
operator). -/
def extract_zip_backup (u : Bool) : List ZipEntry → FS → Option FS
  | [], fs => some fs
  | e :: es, fs =>
    match extractEntry u fs e with
    | some fs2 => extract_zip_backup u es fs2
    | none => none

-- Association-list filesystem lemmas.

theorem lookup_append_left (fs gs : FS) (p : FsPath) (o : FsObj)
    (h : lookupFS fs p = some o) : lookupFS (fs ++ gs) p = some o := by
  induction fs with
  | nil => cases h
  | cons e rest ih =>
    obtain ⟨q, o'⟩ := e
    rw [lookupFS] at h
    rw [List.cons_append, lookupFS]
    split at h
    · rename_i hq
      rw [if_pos hq]
      exact h
    · rename_i hq
      rw [if_neg hq]
      exact ih h

theorem lookup_append_right (fs gs : FS) (p : FsPath)
    (h : lookupFS fs p = none) : lookupFS (fs ++ gs) p = lookupFS gs p := by
  induction fs with
  | nil => rfl
  | cons e rest ih =>
    obtain ⟨q, o'⟩ := e
    rw [lookupFS] at h
    rw [List.cons_append, lookupFS]
    split at h
    · cases h
    · rename_i hq
      rw [if_neg hq]
      exact ih h

theorem lookup_append_none (fs gs : FS) (p : FsPath)
    (h1 : lookupFS fs p = none) (h2 : lookupFS gs p = none) :
    lookupFS (fs ++ gs) p = none := by
  rw [lookup_append_right fs gs p h1]
  exact h2

theorem insertReplace_append (fs : FS) (p : FsPath) (o o' : FsObj)
    (h : lookupFS fs p = none) :
    insertReplace (fs ++ [(p, o)]) p o' = fs ++ [(p, o')] := by
  induction fs with
  | nil => simp [insertReplace]
  | cons e rest ih =>
    obtain ⟨q, a⟩ := e
    rw [lookupFS] at h
    split at h
    · cases h
    · rename_i hq
      rw [List.cons_append, insertReplace, if_neg hq, List.cons_append, ih h]

theorem lookup_insertReplace_self (fs : FS) (p : FsPath) (o : FsObj) :
    lookupFS (insertReplace fs p o) p = some o := by
  induction fs with
  | nil => simp [insertReplace, lookupFS]
  | cons e rest ih =>
    obtain ⟨q, a⟩ := e
    rw [insertReplace]
    split
    · rename_i hq
      rw [lookupFS, if_pos hq]
    · rename_i hq
      rw [lookupFS, if_neg hq]
      exact ih

theorem setPermissions_append (fs : FS) (p : FsPath) (o : FsObj) (m : Nat)
    (h : lookupFS fs p = none) :
    setPermissions (fs ++ [(p, o)]) p m = some (fs ++ [(p, o.withMode m)]) := by
  have h1 : lookupFS (fs ++ [(p, o)]) p = some o := by
    rw [lookup_append_right fs _ p h, lookupFS, if_pos rfl]
  rw [setPermissions, h1]
  exact congrArg some (insertReplace_append fs p o (o.withMode m) h)

theorem prefixesOf_concat (q : FsPath) (n : String) :
    prefixesOf (q ++ [n]) = prefixesOf q ++ [q ++ [n]] := by
  unfold prefixesOf
  rw [List.length_append, List.length_singleton, List.range_succ, List.map_append]
  congr 1
  · apply List.map_congr_left
    intro i hi
    have hi' : i + 1 ≤ q.length := List.mem_range.mp hi
    rw [List.take_append_of_le_length hi']
  · simp

theorem self_mem_prefixesOf (p : FsPath) (h : p ≠ []) : p ∈ prefixesOf p := by
  unfold prefixesOf
  apply List.mem_map.mpr
  have hl : 0 < p.length := List.length_pos.mpr h
  refine ⟨p.length - 1, List.mem_range.mpr (by omega), ?_⟩
  have he : p.length - 1 + 1 = p.length := by omega
  rw [he, List.take_length]

theorem dirsExist_lookup (fs : FS) (p : FsPath) (h : dirsExist fs p = true) (hne : p ≠ []) :
    ∃ m, lookupFS fs p = some (FsObj.dir m) := by
  unfold dirsExist at h
  have hmem := List.all_eq_true.mp h p (self_mem_prefixesOf p hne)
  cases hl : lookupFS fs p with
  | none => rw [hl] at hmem; cases hmem
  | some o =>
    cases o with
    | file c m => rw [hl] at hmem; cases hmem
    | dir m => exact ⟨m, rfl⟩

theorem dirsExist_append (fs gs : FS) (p : FsPath) (h : dirsExist fs p = true) :
    dirsExist (fs ++ gs) p = true := by
  unfold dirsExist at h ⊢
  apply List.all_eq_true.mpr
  intro q hq
  have hone := List.all_eq_true.mp h q hq
  cases hl : lookupFS fs q with
  | none => rw [hl] at hone; cases hone
  | some o =>
    cases o with
    | file c m => rw [hl] at hone; cases hone
    | dir m => rw [lookup_append_left fs gs q _ hl]

theorem foldlM_createDir1_noop (fs : FS) (l : List FsPath)
    (h : ∀ q ∈ l, ∃ m, lookupFS fs q = some (FsObj.dir m)) :
    List.foldlM createDir1 fs l = some fs := by
  induction l with
  | nil => rfl
  | cons q rest ih =>
    obtain ⟨m, hm⟩ := h q (List.mem_cons_self q rest)
    have h1 : createDir1 fs q = some fs := by rw [createDir1, hm]
    rw [List.foldlM_cons, h1]
    exact ih (fun r hr => h r (List.mem_cons_of_mem q hr))

theorem createDirAll_noop (fs : FS) (p : FsPath) (h : dirsExist fs p = true) :
    createDirAll fs p = some fs := by
  unfold createDirAll
  apply foldlM_createDir1_noop
  intro q hq
  unfold dirsExist at h
  have hmem := List.all_eq_true.mp h q hq
  cases hl : lookupFS fs q with
  | none => rw [hl] at hmem; cases hmem
  | some o =>
    cases o with
    | file c m => rw [hl] at hmem; cases hmem
    | dir m => exact ⟨m, rfl⟩

theorem createDirAll_concat (fs : FS) (q : FsPath) (n : String)
    (hq : dirsExist fs q = true) (hn : lookupFS fs (q ++ [n]) = none) :
    createDirAll fs (q ++ [n]) = some (fs ++ [(q ++ [n], FsObj.dir none)]) := by
  unfold createDirAll
  rw [prefixesOf_concat, List.foldlM_append]
  have h1 : List.foldlM createDir1 fs (prefixesOf q) = some fs :=
    createDirAll_noop fs q hq
  rw [h1]
  show List.foldlM createDir1 fs [q ++ [n]] = _
  rw [List.foldlM_cons]
  have h2 : createDir1 fs (q ++ [n]) = some (fs ++ [(q ++ [n], FsObj.dir none)]) := by
    rw [createDir1, hn]
  rw [h2]
  rfl

mutual
/-- A source directory tree (mutual with `FsChildren`): what
`create_zip_backup` snapshots. -/
inductive FsTree where
  | file (contents : List Nat) (mode : Option Nat)
  | dir (children : FsChildren) (mode : Option Nat)
deriving DecidableEq

/-- The named children of a directory, in walk order. -/
inductive FsChildren where
  | nil
  | cons (name : String) (t : FsTree) (rest : FsChildren)
deriving DecidableEq
end

/-- Does `n` name a child in `cs`? -/
def memName (n : String) : FsChildren → Bool
  | .nil => false
  | .cons n' _ rest => n == n' || memName n rest

mutual
/-- Well-formedness of a real directory tree: sibling names are distinct
(a filesystem directory cannot hold two children of the same name). -/
def wfTree : FsTree → Bool
  | .file _ _ => true
  | .dir cs _ => wfChildren cs

def wfChildren : FsChildren → Bool
  | .nil => true
  | .cons n t rest => wfTree t && !(memName n rest) && wfChildren rest
end

mutual
/-- Modelled from the spec: the recursive directory walk of the archive
writer.  `create_zip_backup` (src/src/main.rs lines 214-220) delegates it to
the external zip library (`zip_create_from_directory`), which is not part of
src/; per spec section 4.2 the writer walks `sourceDir` recursively, adding
one entry per file and directory encountered with paths relative to
`sourceDir` (a directory entry before the entries beneath it, as the
depth-first walk encounters them), file contents, and the source mode bits
on permission-aware platforms. -/
def walkEntry (base : FsPath) (n : String) : FsTree → List ZipEntry
  | .file c m => [⟨base ++ [n], false, c, m⟩]
  | .dir cs m => ⟨base ++ [n], true, [], m⟩ :: walkChildren (base ++ [n]) cs

def walkChildren (base : FsPath) : FsChildren → List ZipEntry
  | .nil => []
  | .cons n t rest => walkEntry base n t ++ walkChildren base rest
end

/-- `create_zip_backup` (src/src/main.rs lines 214-220): serialize the
source tree (given by its root's children) into the archive's entry list. -/
def create_zip_backup (cs : FsChildren) : List ZipEntry := walkChildren [] cs

mutual
/-- The flat view of a tree: the relative path and object of every file and
directory in it, in walk order.  With `u = true` (a unix extraction) each
object carries exactly the mode of the source tree; with `u = false` the
modes are the platform defaults (`none`). -/
def flatEntry (u : Bool) (base : FsPath) (n : String) : FsTree → FS
  | .file c m => [(base ++ [n], FsObj.file c (if u then m else none))]
  | .dir cs m => (base ++ [n], FsObj.dir (if u then m else none)) :: flatChildren u (base ++ [n]) cs

def flatChildren (u : Bool) (base : FsPath) : FsChildren → FS
  | .nil => []
  | .cons n t rest => flatEntry u base n t ++ flatChildren u base rest
end

mutual
/-- Is `q` the path of some file or directory of the subtree `t` named `n`
under `base`? -/
def pathInEntry (base : FsPath) (n : String) : FsTree → FsPath → Bool
  | .file _ _, q => decide (q = base ++ [n])
  | .dir cs _, q => decide (q = base ++ [n]) || pathInChildren (base ++ [n]) cs q

def pathInChildren (base : FsPath) : FsChildren → FsPath → Bool
  | .nil, _ => false
  | .cons n t rest, q => pathInEntry base n t q || pathInChildren base rest q
end

theorem applyUnixMode_dir (u : Bool) (fs : FS) (p : FsPath) (m : Option Nat)
    (hnone : lookupFS fs p = none) :
    applyUnixMode u (fs ++ [(p, FsObj.dir none)]) p m =
      some (fs ++ [(p, FsObj.dir (if u then m else none))]) := by
  cases u with
  | false => simp [applyUnixMode]
  | true =>
    cases m with
    | none => simp [applyUnixMode]
    | some mo =>
      rw [applyUnixMode, if_pos rfl]
      rw [setPermissions_append fs p (FsObj.dir none) mo hnone]
      rfl

theorem applyUnixMode_file (u : Bool) (fs : FS) (p : FsPath) (c : List Nat) (m : Option Nat)
    (hnone : lookupFS fs p = none) :
    applyUnixMode u (fs ++ [(p, FsObj.file c none)]) p m =
      some (fs ++ [(p, FsObj.file c (if u then m else none))]) := by
  cases u with
  | false => simp [applyUnixMode]
  | true =>
    cases m with
    | none => simp [applyUnixMode]
    | some mo =>
      rw [applyUnixMode, if_pos rfl]
      rw [setPermissions_append fs p (FsObj.file c none) mo hnone]
      rfl

theorem dirsExist_existsFS (fs : FS) (q : FsPath) (h : dirsExist fs q = true) :
    existsFS fs q = true := by
  rcases eq_or_ne q [] with rfl | hne
  · simp [existsFS]
  · obtain ⟨m, hm⟩ := dirsExist_lookup fs q h hne
    simp [existsFS, hm]

theorem extractEntry_dir_fresh (u : Bool) (fs : FS) (q : FsPath) (n : String) (c : List Nat)
    (m : Option Nat) (hq : dirsExist fs q = true) (hn : lookupFS fs (q ++ [n]) = none) :
    extractEntry u fs ⟨q ++ [n], true, c, m⟩ =
      some (fs ++ [(q ++ [n], FsObj.dir (if u then m else none))]) := by
  rw [extractEntry]
  dsimp only
  rw [if_pos rfl, createDirAll_concat fs q n hq hn]
  exact applyUnixMode_dir u fs (q ++ [n]) m hn

theorem createFileWrite_fresh (fs : FS) (p : FsPath) (c : List Nat)
    (hn : lookupFS fs p = none) :
    createFileWrite fs p c = some (fs ++ [(p, FsObj.file c none)]) := by
  unfold createFileWrite
  rw [hn]

theorem extractEntry_file_fresh (u : Bool) (fs : FS) (q : FsPath) (n : String) (c : List Nat)
    (m : Option Nat) (hq : dirsExist fs q = true) (hn : lookupFS fs (q ++ [n]) = none) :
    extractEntry u fs ⟨q ++ [n], false, c, m⟩ =
      some (fs ++ [(q ++ [n], FsObj.file c (if u then m else none))]) := by
  rw [extractEntry]
  dsimp only
  have hpar : parentOf (q ++ [n]) = q := by simp [parentOf]
  rw [if_neg (by simp), hpar, dirsExist_existsFS fs q hq, if_pos rfl]
  dsimp only
  rw [createFileWrite_fresh fs (q ++ [n]) c hn]
  exact applyUnixMode_file u fs (q ++ [n]) c m hn

theorem extract_append (u : Bool) (as bs : List ZipEntry) (fs : FS) :
    extract_zip_backup u (as ++ bs) fs =
      match extract_zip_backup u as fs with
      | some fs2 => extract_zip_backup u bs fs2
      | none => none := by
  induction as generalizing fs with
  | nil => rfl
  | cons e rest ih =>
    rw [List.cons_append, extract_zip_backup, extract_zip_backup]
    cases extractEntry u fs e with
    | none => rfl
    | some fs2 => exact ih fs2

theorem dirsExist_extend (fs : FS) (base : FsPath) (n : String) (mo : Option Nat)
    (h : dirsExist fs base = true) (hn : lookupFS fs (base ++ [n]) = none) :
    dirsExist (fs ++ [(base ++ [n], FsObj.dir mo)]) (base ++ [n]) = true := by
  unfold dirsExist
  rw [prefixesOf_concat]
  apply List.all_eq_true.mpr
  intro q hq
  rw [List.mem_append] at hq
  cases hq with
  | inl hq1 =>
    have h' := h
    unfold dirsExist at h'
    have hone := List.all_eq_true.mp h' q hq1
    cases hl : lookupFS fs q with
    | none => rw [hl] at hone; cases hone
    | some o =>
      cases o with
      | file c m2 => rw [hl] at hone; cases hone
      | dir m2 => rw [lookup_append_left fs _ q _ hl]
  | inr hq2 =>
    have hq3 : q = base ++ [n] := by simpa using hq2
    subst hq3
    rw [lookup_append_right fs _ _ hn, lookupFS, if_pos rfl]

mutual
theorem pathInEntry_shape (base : FsPath) (n : String) (t : FsTree) (q : FsPath)
    (h : pathInEntry base n t q = true) : q.take (base.length + 1) = base ++ [n] := by
  cases t with
  | file c m =>
    rw [pathInEntry] at h
    have hq : q = base ++ [n] := of_decide_eq_true h
    subst hq
    have hl : (base ++ [n]).length = base.length + 1 := by simp
    rw [← hl, List.take_length]
  | dir cs m =>
    rw [pathInEntry, Bool.or_eq_true] at h
    cases h with
    | inl h1 =>
      have hq : q = base ++ [n] := of_decide_eq_true h1
      subst hq
      have hl : (base ++ [n]).length = base.length + 1 := by simp
      rw [← hl, List.take_length]
    | inr h2 =>
      obtain ⟨n', hmem, htake⟩ := pathInChildren_shape (base ++ [n]) cs q h2
      have hlen : (base ++ [n]).length + 1 = base.length + 1 + 1 := by simp
      rw [hlen] at htake
      have hcut : q.take (base.length + 1) = (q.take (base.length + 1 + 1)).take (base.length + 1) := by
        rw [List.take_take]
        congr 1
        omega
      rw [hcut, htake]
      exact List.take_left' (by simp)

theorem pathInChildren_shape (base : FsPath) (cs : FsChildren) (q : FsPath)
    (h : pathInChildren base cs q = true) :
    ∃ n, memName n cs = true ∧ q.take (base.length + 1) = base ++ [n] := by
  cases cs with
  | nil => rw [pathInChildren] at h; cases h
  | cons n t rest =>
    rw [pathInChildren, Bool.or_eq_true] at h
    cases h with
    | inl h1 => exact ⟨n, by simp [memName], pathInEntry_shape base n t q h1⟩
    | inr h2 =>
      obtain ⟨n', hmem, htake⟩ := pathInChildren_shape base rest q h2
      exact ⟨n', by simp [memName, hmem], htake⟩
end

mutual
theorem lookup_flatEntry_none (u : Bool) (base : FsPath) (n : String) (t : FsTree) (q : FsPath)
    (h : pathInEntry base n t q = false) : lookupFS (flatEntry u base n t) q = none := by
  cases t with
  | file c m =>
    rw [pathInEntry] at h
    have hq : q ≠ base ++ [n] := by
      intro hqe
      rw [hqe] at h
      simp at h
    rw [flatEntry, lookupFS, if_neg (fun he => hq he.symm), lookupFS]
  | dir cs m =>
    rw [pathInEntry] at h
    rw [Bool.or_eq_false_iff] at h
    obtain ⟨h1, h2⟩ := h
    have hq : q ≠ base ++ [n] := by
      intro hqe
      rw [hqe] at h1
      simp at h1
    rw [flatEntry, lookupFS, if_neg (fun he => hq he.symm)]
    exact lookup_flatChildren_none u (base ++ [n]) cs q h2

theorem lookup_flatChildren_none (u : Bool) (base : FsPath) (cs : FsChildren) (q : FsPath)
    (h : pathInChildren base cs q = false) : lookupFS (flatChildren u base cs) q = none := by
  cases cs with
  | nil => rfl
  | cons n t rest =>
    rw [pathInChildren, Bool.or_eq_false_iff] at h
    obtain ⟨h1, h2⟩ := h
    rw [flatChildren]
    exact lookup_append_none _ _ q (lookup_flatEntry_none u base n t q h1)
      (lookup_flatChildren_none u base rest q h2)
end

mutual
theorem extract_walkEntry (u : Bool) (base : FsPath) (n : String) (t : FsTree) (fs : FS)
    (hwf : wfTree t = true) (hbase : dirsExist fs base = true)
    (hdisj : ∀ q, pathInEntry base n t q = true → lookupFS fs q = none) :
    extract_zip_backup u (walkEntry base n t) fs = some (fs ++ flatEntry u base n t) := by
  cases t with
  | file c m =>
    have hn : lookupFS fs (base ++ [n]) = none :=
      hdisj (base ++ [n]) (by rw [pathInEntry]; exact decide_eq_true rfl)
    rw [walkEntry, extract_zip_backup, extractEntry_file_fresh u fs base n c m hbase hn]
    rfl
  | dir cs m =>
    have hn : lookupFS fs (base ++ [n]) = none :=
      hdisj (base ++ [n]) (by rw [pathInEntry]; simp)
    rw [walkEntry, extract_zip_backup, extractEntry_dir_fresh u fs base n [] m hbase hn]
    have hwf' : wfChildren cs = true := by rw [wfTree] at hwf; exact hwf
    have hbase' :
        dirsExist (fs ++ [(base ++ [n], FsObj.dir (if u then m else none))]) (base ++ [n]) = true :=
      dirsExist_extend fs base n _ hbase hn
    have hdisj' : ∀ q, pathInChildren (base ++ [n]) cs q = true →
        lookupFS (fs ++ [(base ++ [n], FsObj.dir (if u then m else none))]) q = none := by
      intro q hq
      have h1 : lookupFS fs q = none := hdisj q (by rw [pathInEntry]; simp [hq])
      have h2 : q ≠ base ++ [n] := by
        obtain ⟨n', hmem', htake⟩ := pathInChildren_shape (base ++ [n]) cs q hq
        intro hqe
        subst hqe
        rw [List.take_of_length_le (Nat.le_succ _)] at htake
        have := congrArg List.length htake
        simp at this
      rw [lookup_append_right fs _ q h1, lookupFS, if_neg (fun he => h2 he.symm), lookupFS]
    dsimp only
    rw [extract_walkChildren u (base ++ [n]) cs
      (fs ++ [(base ++ [n], FsObj.dir (if u then m else none))]) hwf' hbase' hdisj']
    rw [flatEntry]
    simp [List.append_assoc]

theorem extract_walkChildren (u : Bool) (base : FsPath) (cs : FsChildren) (fs : FS)
    (hwf : wfChildren cs = true) (hbase : dirsExist fs base = true)
    (hdisj : ∀ q, pathInChildren base cs q = true → lookupFS fs q = none) :
    extract_zip_backup u (walkChildren base cs) fs = some (fs ++ flatChildren u base cs) := by
  cases cs with
  | nil => rw [walkChildren, flatChildren]; simp [extract_zip_backup]
  | cons n t rest =>
    rw [wfChildren] at hwf
    simp only [Bool.and_eq_true, Bool.not_eq_true'] at hwf
    obtain ⟨⟨hwt, hmn⟩, hwr⟩ := hwf
    rw [walkChildren, extract_append]
    rw [extract_walkEntry u base n t fs hwt hbase
      (fun q hq => hdisj q (by rw [pathInChildren]; simp [hq]))]
    have hbase2 : dirsExist (fs ++ flatEntry u base n t) base = true :=
      dirsExist_append _ _ _ hbase
    have hdisj2 : ∀ q, pathInChildren base rest q = true →
        lookupFS (fs ++ flatEntry u base n t) q = none := by
      intro q hq
      have h1 : lookupFS fs q = none := hdisj q (by rw [pathInChildren]; simp [hq])
      have hpe : pathInEntry base n t q = false := by
        cases hpe : pathInEntry base n t q with
        | false => rfl
        | true =>
          exfalso
          have ht1 := pathInEntry_shape base n t q hpe
          obtain ⟨n', hmem', ht2⟩ := pathInChildren_shape base rest q hq
          rw [ht1] at ht2
          have hnn : n = n' := by
            have := List.append_cancel_left ht2
            simpa using this
          rw [hnn] at hmn
          rw [hmn] at hmem'
          cases hmem'
      exact lookup_append_none _ _ q h1 (lookup_flatEntry_none u base n t q hpe)
    dsimp only
    rw [extract_walkChildren u base rest (fs ++ flatEntry u base n t) hwr hbase2 hdisj2]
    rw [flatChildren]
    simp [List.append_assoc]
end

/-- C1: writing a well-formed directory tree with `create_zip_backup` and
extracting the archive with `extract_zip_backup` into an empty target
reproduces exactly the tree's flat view: the same relative paths, the same
file bytes, and — when the platform applies permission modes (`u = true`) —
exactly the source permission bits (`flatChildren true` carries the tree's
modes unchanged; `flatChildren false` carries platform defaults).
Well-formedness only asks that sibling names be distinct, which every real
directory satisfies. -/
theorem extract_create_zip_roundTrip (u : Bool) (cs : FsChildren) (hwf : wfChildren cs = true) :
    extract_zip_backup u (create_zip_backup cs) [] = some (flatChildren u [] cs) := by
  have h := extract_walkChildren u [] cs [] hwf (by decide) (fun q _ => rfl)
  simpa using h

/-- Witness for C1: the spec's basic round-trip scenario
`{a.txt: "x", sub/b.txt: "y"}` (with a permission bit on each of `a.txt` and
`sub`), extracted on a unix platform. -/
theorem extract_create_zip_roundTrip_instance :
    wfChildren (FsChildren.cons "a.txt" (FsTree.file [120] (some 420))
      (FsChildren.cons "sub" (FsTree.dir
        (FsChildren.cons "b.txt" (FsTree.file [121] none) FsChildren.nil) (some 493))
        FsChildren.nil)) = true ∧
    extract_zip_backup true (create_zip_backup (FsChildren.cons "a.txt" (FsTree.file [120] (some 420))
      (FsChildren.cons "sub" (FsTree.dir
        (FsChildren.cons "b.txt" (FsTree.file [121] none) FsChildren.nil) (some 493))
        FsChildren.nil))) [] =
      some (flatChildren true [] (FsChildren.cons "a.txt" (FsTree.file [120] (some 420))
        (FsChildren.cons "sub" (FsTree.dir
          (FsChildren.cons "b.txt" (FsTree.file [121] none) FsChildren.nil) (some 493))
          FsChildren.nil))) :=
  ⟨by decide, extract_create_zip_roundTrip true _ (by decide)⟩

theorem applyUnixMode_none (u : Bool) (fs : FS) (p : FsPath) :
    applyUnixMode u fs p none = some fs := by
  cases u <;> simp [applyUnixMode]

theorem createFileWrite_overwrite (fs : FS) (p : FsPath) (c c0 : List Nat) (m0 : Option Nat)
    (h : lookupFS fs p = some (FsObj.file c0 m0)) :
    createFileWrite fs p c = some (insertReplace fs p (FsObj.file c m0)) := by
  unfold createFileWrite
  rw [h]

theorem modeOf_withMode (o : FsObj) (m : Nat) : (o.withMode m).modeOf = some m := by
  cases o <;> rfl

/-- C8: per-entry extraction semantics of `extract_zip_backup`
(src/src/main.rs lines 226-254): entries are processed in stored order; a
directory entry is created idempotently (a pre-existing directory is not an
error, a missing one is appended); a file entry has its parent chain ensured
first and its bytes written, overwriting an existing file at that path
(keeping that file's permission bits until the permission step); when the
platform is not unix (`u = false`) the permission step is a no-op that never
errors; when the platform is unix and the entry carries a mode, a successful
extraction leaves that mode on the created path. -/
theorem extract_entry_semantics :
    (∀ (u : Bool) (e : ZipEntry) es fs, extract_zip_backup u (e :: es) fs =
      match extractEntry u fs e with
      | some fs2 => extract_zip_backup u es fs2
      | none => none) ∧
    (∀ (u : Bool) fs p c, dirsExist fs p = true →
      extractEntry u fs ⟨p, true, c, none⟩ = some fs) ∧
    (∀ (u : Bool) fs q n c, dirsExist fs q = true → lookupFS fs (q ++ [n]) = none →
      extractEntry u fs ⟨q ++ [n], true, c, none⟩ =
        some (fs ++ [(q ++ [n], FsObj.dir none)])) ∧
    (∀ (u : Bool) fs p c c0 m0, existsFS fs (parentOf p) = true →
      lookupFS fs p = some (FsObj.file c0 m0) →
      extractEntry u fs ⟨p, false, c, none⟩ = some (insertReplace fs p (FsObj.file c m0))) ∧
    (∀ (u : Bool) fs p c m, existsFS fs (parentOf p) = false →
      extractEntry u fs ⟨p, false, c, m⟩ =
        match createDirAll fs (parentOf p) with
        | some fs2 =>
          match createFileWrite fs2 p c with
          | some fs3 => applyUnixMode u fs3 p m
          | none => none
        | none => none) ∧
    (∀ fs p m, applyUnixMode false fs p m = some fs) ∧
    (∀ fs fs2 (e : ZipEntry) mo, extractEntry true fs e = some fs2 → e.mode = some mo →
      ∃ o, lookupFS fs2 e.path = some o ∧ o.modeOf = some mo) := by
  refine ⟨fun u e es fs => rfl, ?_, ?_, ?_, ?_, fun fs p m => by simp [applyUnixMode], ?_⟩
  · intro u fs p c h
    rw [extractEntry]
    dsimp only
    rw [if_pos rfl, createDirAll_noop fs p h]
    exact applyUnixMode_none u fs p
  · intro u fs q n c h1 h2
    have h := extractEntry_dir_fresh u fs q n c none h1 h2
    simpa using h
  · intro u fs p c c0 m0 hex hl
    rw [extractEntry]
    dsimp only
    rw [if_neg (by simp), if_pos hex]
    dsimp only
    rw [createFileWrite_overwrite fs p c c0 m0 hl]
    dsimp only
    exact applyUnixMode_none u _ p
  · intro u fs p c m hex
    rw [extractEntry]
    dsimp only
    rw [if_neg (by simp), if_neg (by simp [hex])]
    rcases createDirAll fs (parentOf p) with _ | fs2
    · rfl
    · rcases createFileWrite fs2 p c with _ | fs3 <;> rfl
  · intro fs fs2 e mo h hm
    unfold extractEntry at h
    split at h
    · rename_i fs3 hbig
      rw [hm] at h
      unfold applyUnixMode at h
      rw [if_pos rfl] at h
      dsimp only at h
      unfold setPermissions at h
      split at h
      · rename_i o ho
        injection h with h'
        subst h'
        exact ⟨o.withMode mo, lookup_insertReplace_self fs3 e.path _, modeOf_withMode o mo⟩
      · cases h
    · cases h

/-- Witness for C8: an idempotent directory re-creation and an overwriting
file write, at concrete filesystems. -/
theorem extract_entry_semantics_instance :
    extractEntry true [(["a"], FsObj.dir none)] ⟨["a"], true, [], none⟩ =
      some [(["a"], FsObj.dir none)] ∧
    extractEntry true [(["b.txt"], FsObj.file [1, 2] (some 384))] ⟨["b.txt"], false, [9], none⟩ =
      some (insertReplace [(["b.txt"], FsObj.file [1, 2] (some 384))] ["b.txt"]
        (FsObj.file [9] (some 384))) :=
  ⟨extract_entry_semantics.2.1 true [(["a"], FsObj.dir none)] ["a"] [] (by decide),
   extract_entry_semantics.2.2.2.1 true [(["b.txt"], FsObj.file [1, 2] (some 384))] ["b.txt"]
     [9] [1, 2] (some 384) (by decide) (by decide)⟩

/-- One entry yielded by `fs::read_dir` on the backup directory: its file
name and whether it is a regular file. -/
structure DirEntry where
  name : List Char
  isFile : Bool
deriving DecidableEq

/-- `Path::extension()` of a plain file name: the part after the last `.`;
`none` when there is no `.` or when the only `.` leads the name (a dotfile
has no extension).  `unwrap_or_default() == "zip"` in the source is
equivalent to this being `some "zip"`. -/
def fileExtension (name : List Char) : Option (List Char) :=
  let extRev := name.reverse.takeWhile (fun c => c ≠ '.')
  if extRev.length = name.length then none
  else if extRev.length + 1 = name.length then none
  else some extRev.reverse

/-- The sentinel entry inserted by src/src/main.rs line 154. -/
def goBackPair : List Char × List Char := ("Go back".data, "Go back".data)

/-- The catalog built at src/src/main.rs lines 121-152: keep the regular
files with a `zip` extension and decode each filename into the pair
(display name, archive filename). -/
def catalog_backup_files (es : List DirEntry) : List (List Char × List Char) :=
  es.filterMap (fun e =>
    if e.isFile = true ∧ fileExtension e.name = some ("zip".data) then
      some (decode_filename e.name)
    else none)

/-- `backup_files` after `backup_files.insert(0, ("Go back", "Go back"))`
(src/src/main.rs line 154). -/
def backup_files_model (es : List DirEntry) : List (List Char × List Char) :=
  goBackPair :: catalog_backup_files es

/-- The mutation sequence of a confirmed restore (src/src/main.rs lines
182-184): `fs::remove_dir_all(&target_dir)` deletes the target and its prior
contents `_tfs` in their entirety, `fs::create_dir_all(&target_dir)`
recreates it empty, and only then `extract_zip_backup` runs — the two
`.expect` calls panic on failure, so a failed step means extraction is never
begun.  `removeOk`/`recreateOk` say whether those two filesystem calls
succeed; the result is the new target contents, `none` on panic. -/
def restore_mutations (removeOk recreateOk u : Bool) (entries : List ZipEntry)
    (_tfs : FS) : Option FS :=
  match (if removeOk then some ([] : FS) else none) with
  | none => none
  | some wiped =>
    match (if recreateOk then some wiped else none) with
    | none => none
    | some empty => extract_zip_backup u entries empty

/-- The outcome of one `restore_directory` call. -/
inductive RestoreOutcome where
  | dirMissing
  | noBackups
  | cancelled
  | wentBack
  | restoreFailed
  | restored
deriving DecidableEq

/-- `restore_directory` (src/src/main.rs lines 110-193).  Inputs:
`backupDir` is the listing of the backup directory (`none` when the
directory does not exist, line 117); `archives` gives the entries stored in
the archive of each filename; `sel` is the menu selection (`none` when the
user cancels, line 169); `tfs` is the current contents of the target
directory.  Output: the outcome and the final target contents (`none` when
a mutation step failed, leaving the target in an unspecified partial
state). -/
def restore_directory (u removeOk recreateOk : Bool) (backupDir : Option (List DirEntry))
    (archives : List Char → List ZipEntry) (sel : Option Nat) (tfs : FS) :
    RestoreOutcome × Option FS :=
  match backupDir with
  | none => (.dirMissing, some tfs)
  | some es =>
    let backup_files := backup_files_model es
    if backup_files.isEmpty then (.noBackups, some tfs)
    else
      match sel with
      | none => (.cancelled, some tfs)
      | some i =>
        let chosen := backup_files.getD i goBackPair
        if chosen.2 = "Go back".data then (.wentBack, some tfs)
        else
          match restore_mutations removeOk recreateOk u (archives chosen.2) tfs with
          | some fs2 => (.restored, some fs2)
          | none => (.restoreFailed, none)

/-- `backup_directory` (src/src/main.rs lines 74-108): when the backup
directory does not exist (`bd = none`) it is first created, with all missing
parents, as an empty directory (lines 78-81); then the archive serialized by
`create_zip_backup` from the source tree is written into it under the
encoded backup name (lines 90-99).  The backup directory is modelled as the
list of (filename, archive entries) pairs it holds. -/
def backup_directory (bd : Option (List (List Char × List ZipEntry))) (label : List Char)
    (now : Timestamp) (src : FsChildren) : List (List Char × List ZipEntry) × List Char :=
  let files := bd.getD []
  let name := encode_backup_name label now
  (files ++ [(name, create_zip_backup src)], name)

/-- C5: a successful restore first deletes the target wholesale and
recreates it empty, so the resulting target is exactly the extraction of the
selected archive into an empty directory — independent of the target's
prior contents, which never survive; if the deletion or the recreation step
fails, the result is `none` whatever the archive holds, i.e. extraction is
never begun; and for an archive written from a well-formed tree the target
ends up holding exactly that tree. -/
theorem restore_mutations_spec :
    (∀ (u : Bool) es tfs, restore_mutations true true u es tfs = extract_zip_backup u es []) ∧
    (∀ (b u : Bool) es tfs, restore_mutations false b u es tfs = none) ∧
    (∀ (u : Bool) es tfs, restore_mutations true false u es tfs = none) ∧
    (∀ (u : Bool) cs tfs, wfChildren cs = true →
      restore_mutations true true u (create_zip_backup cs) tfs = some (flatChildren u [] cs)) := by
  refine ⟨fun u es tfs => rfl, fun b u es tfs => rfl, fun u es tfs => rfl, ?_⟩
  intro u cs tfs hwf
  have h := extract_walkChildren u [] cs [] hwf (by decide) (fun q _ => rfl)
  show extract_zip_backup u (create_zip_backup cs) [] = _
  simpa using h

/-- Witness for C5: restoring a one-file archive over a non-empty target
yields exactly the archive's tree; the pre-existing `old.txt` is gone. -/
theorem restore_mutations_spec_instance :
    restore_mutations true true true
        (create_zip_backup (FsChildren.cons "save.dat" (FsTree.file [7] none) FsChildren.nil))
        [(["old.txt"], FsObj.file [1] none)] =
      some (flatChildren true [] (FsChildren.cons "save.dat" (FsTree.file [7] none) FsChildren.nil)) ∧
    lookupFS (flatChildren true [] (FsChildren.cons "save.dat" (FsTree.file [7] none) FsChildren.nil))
      ["old.txt"] = none :=
  ⟨restore_mutations_spec.2.2.2 true (FsChildren.cons "save.dat" (FsTree.file [7] none) FsChildren.nil)
    [(["old.txt"], FsObj.file [1] none)] (by decide), by decide⟩

/-- C6: whenever the backup directory exists, the catalog's element at
position 0 is the "Go back" sentinel — however many real backups there are —
and selecting index 0 makes `restore_directory` return with the `wentBack`
outcome and the target contents unchanged: no delete, no create, no
extraction. -/
theorem catalog_sentinel_no_mutation (u removeOk recreateOk : Bool) (es : List DirEntry)
    (archives : List Char → List ZipEntry) (tfs : FS) :
    (backup_files_model es).head? = some goBackPair ∧
    restore_directory u removeOk recreateOk (some es) archives (some 0) tfs =
      (RestoreOutcome.wentBack, some tfs) :=
  ⟨rfl, rfl⟩

/-- C7: when the backup directory does not exist, `restore_directory`
reports the "directory does not exist" condition and returns at once — no
catalog (empty or sentinel-only) is produced and the target contents are
untouched, whatever the selection. -/
theorem restore_missing_backup_dir (u removeOk recreateOk : Bool)
    (archives : List Char → List ZipEntry) (sel : Option Nat) (tfs : FS) :
    restore_directory u removeOk recreateOk none archives sel tfs =
      (RestoreOutcome.dirMissing, some tfs) := rfl

/-- C9: the sentinel inserted at position 0 makes the catalog non-empty for
every directory listing, so the `is_empty` check after it (src/src/main.rs
lines 156-159) can never fire: no execution of `restore_directory` on an
existing backup directory produces the `noBackups` outcome. -/
theorem noBackups_branch_unreachable (u removeOk recreateOk : Bool) (es : List DirEntry)
    (archives : List Char → List ZipEntry) (sel : Option Nat) (tfs : FS) :
    1 ≤ (backup_files_model es).length ∧
    (backup_files_model es).isEmpty = false ∧
    (restore_directory u removeOk recreateOk (some es) archives sel tfs).1 ≠
      RestoreOutcome.noBackups := by
  refine ⟨by simp [backup_files_model], rfl, ?_⟩
  rw [restore_directory.eq_def]
  dsimp only
  rw [show (backup_files_model es).isEmpty = false from rfl, if_neg (by simp)]
  cases sel with
  | none => simp
  | some i =>
    dsimp only
    split
    · simp
    · split <;> simp

/-- C10: `backup_directory` never fails because the backup directory is
absent: when it does not exist it is created (empty) before the archive is
written, and in every case the archive serialized from the source tree is
present in the directory afterwards under the encoded name — in contrast to
`restore_directory`, which reports the missing-directory condition and
returns. -/
theorem backup_creates_missing_dir (bd : Option (List (List Char × List ZipEntry)))
    (label : List Char) (now : Timestamp) (src : FsChildren) :
    (backup_directory bd label now src).2 = encode_backup_name label now ∧
    (encode_backup_name label now, create_zip_backup src) ∈ (backup_directory bd label now src).1 ∧
    (backup_directory none label now src).1 =
      [(encode_backup_name label now, create_zip_backup src)] ∧
    ∀ (u removeOk recreateOk : Bool) (archives : List Char → List ZipEntry)
      (sel : Option Nat) (tfs : FS),
      (restore_directory u removeOk recreateOk none archives sel tfs).1 =
        RestoreOutcome.dirMissing := by
  refine ⟨rfl, ?_, rfl, fun u a b ar sel tfs => rfl⟩
  simp [backup_directory]
